import Mathlib

/-
  Verification development for `queue.c`: a singly linked queue with a head
  pointer, a tail pointer and an element count, supporting insertion at both
  ends, removal at the head, in-place reversal and merge sort.

  State representation.  A heap of list elements reachable from `q->head` is
  represented by `chain : List list_ele_t`, listed in next-link order: the
  first entry is the node `head` points to, each node's `next` field points to
  the following entry, and the last entry has `next == NULL`.  Every node
  carries its machine address `addr` so that pointer identity and pointer
  comparisons are expressible.  The `tail` field of the queue structure is
  kept separately as the address it stores (`none` for `NULL`), because the
  code can leave `tail` disagreeing with the chain (for instance pointing at a
  node that is no longer reachable from `head`).  `size` is the C `int` field.

  A `NULL` queue pointer is `(none : Option queue_t)`.  Operations that would
  dereference an address outside the represented chain (undefined behaviour
  in the C program) return `none` at the outer `Option` layer; a defined
  outcome `o` is returned as `some o`.

  Strings are NUL-terminated byte strings; a stored value is the list of its
  bytes before the terminator.
-/

/-- Byte string content of a C string (bytes before the NUL terminator). -/
abbrev Str := List Nat

/-- Model of `strcmp` from the C library, restricted to its sign: negative, zero or
positive according to lexicographic byte order, where the terminator of the
shorter string compares below any content byte. -/
def strcmp : Str → Str → Int
  | [], [] => 0
  | [], _ :: _ => -1
  | _ :: _, [] => 1
  | a :: as, b :: bs => if a < b then -1 else if b < a then 1 else strcmp as bs

/-- The ordering `strcmp a b <= 0` used to state sortedness of values. -/
def strle (a b : Str) : Prop := strcmp a b ≤ 0

instance (a b : Str) : Decidable (strle a b) :=
  inferInstanceAs (Decidable (strcmp a b ≤ 0))

/-- One `list_ele_t` node: its machine address and the byte string stored in
`value`.  The `next` field is represented by the node's position in the
chain of the enclosing queue. -/
structure list_ele_t where
  addr : Nat
  value : Str
deriving DecidableEq, Repr

/-- The node ordering used by `merge`: comparison of the stored values. -/
def rle (a b : list_ele_t) : Prop := strle a.value b.value

instance : DecidableRel rle :=
  fun a b => inferInstanceAs (Decidable (strcmp a.value b.value ≤ 0))

/-- Model of `queue_t`: the reachable chain (standing for `head` and the `next`
links), the address stored in `tail` (`none` for `NULL`), and the `int`
element count `size`. -/
structure queue_t where
  chain : List list_ele_t
  tail : Option Nat
  size : Int
deriving DecidableEq, Repr

/-- Front-to-back sequence of stored values of a queue. -/
def vals (q : queue_t) : List Str := q.chain.map list_ele_t.value

/-- Address stored in the queue's `head` field. -/
def headAddr (q : queue_t) : Option Nat := q.chain.head?.map list_ele_t.addr

/-- Address of the last node of a chain (`none` for the empty chain). -/
def lastAddr (c : List list_ele_t) : Option Nat := c.getLast?.map list_ele_t.addr

/-- The loop `while (t->next) t = t->next;` run from the node at address `t`
of the chain `c`: locate `t` in the chain, then follow next links to the last
node and return its address.  `none` when `t` is not a reachable node (the C
loop would dereference a stale pointer). -/
def tailWalk : List list_ele_t → Nat → Option Nat
  | [], _ => none
  | n :: rest, t => if n.addr = t then lastAddr (n :: rest) else tailWalk rest t

/-- Model of `merge` from queue.c, with explicit recursion fuel (the C recursion
consumes one node per call, so `l1.length + l2.length` fuel always
suffices; the fuel-exhausted default is chosen so that the result is always
a permutation of the input).  Ties (`strcmp == 0`) take the head of the
second list, as in the code (`result < 0` picks `l1`). -/
def mergeFuel : Nat → List list_ele_t → List list_ele_t → List list_ele_t
  | 0, l1, l2 => l1 ++ l2
  | _ + 1, [], l2 => l2
  | _ + 1, l1@(_ :: _), [] => l1
  | fuel + 1, a :: as, b :: bs =>
    if strcmp a.value b.value < 0 then a :: mergeFuel fuel as (b :: bs)
    else b :: mergeFuel fuel (a :: as) bs

/-- Model of `merge(l1, l2)` from queue.c. -/
def merge (l1 l2 : List list_ele_t) : List list_ele_t :=
  mergeFuel (l1.length + l2.length) l1 l2

/-- Number of iterations of the split loop of `mergeSortList`
(`while (fast && fast->next)`), as a function of the chain hanging from the
initial `fast` pointer: the loop runs while at least two nodes remain ahead,
consuming two per iteration. -/
def splitSteps : List list_ele_t → Nat
  | [] => 0
  | [_] => 0
  | _ :: _ :: fs => splitSteps fs + 1

/-- Model of `mergeSortList` from queue.c with explicit recursion fuel.  `slow` starts
at the head and `fast` at `head->next`; after `splitSteps` iterations the
chain is cut after `slow`, so the first part has `splitSteps + 1` nodes.
Each part is sorted recursively and the results are merged. -/
def mergeSortFuel : Nat → List list_ele_t → List list_ele_t
  | 0, l => l
  | fuel + 1, l =>
    match l with
    | [] => l
    | [_] => l
    | n :: m :: rest =>
      let k := splitSteps (m :: rest) + 1
      merge (mergeSortFuel fuel ((n :: m :: rest).take k))
            (mergeSortFuel fuel ((n :: m :: rest).drop k))

/-- Model of `mergeSortList(head)` from queue.c (chain length is sufficient fuel). -/
def mergeSortList (l : List list_ele_t) : List list_ele_t :=
  mergeSortFuel l.length l

/-- The reversal loop of `q_reverse`: `acc` is the already re-linked part
hanging from `prev`, the second argument the part still in original order. -/
def reverseChain : List list_ele_t → List list_ele_t → List list_ele_t
  | acc, [] => acc
  | acc, n :: rest => reverseChain (n :: acc) rest

/-- Outcome of the two `malloc` calls of an insertion: the node allocation
fails, the value-buffer allocation fails, or both succeed and the node is
placed at the fresh address. -/
inductive AllocOutcome where
  | nodeFail : AllocOutcome
  | valueFail : AllocOutcome
  | ok : Nat → AllocOutcome
deriving DecidableEq, Repr

/-- Model of `q_new()` from queue.c, in the case the allocation succeeds: empty chain,
`NULL` head and tail, zero size. -/
def q_new : queue_t := { chain := [], tail := none, size := 0 }

/-- Model of `q_free(q)` from queue.c: frees every node and the queue structure; the
pointer no longer refers to a live queue afterwards.  On `NULL` it returns
at once, leaving the pointer `NULL`. -/
def q_free (q : Option queue_t) : Option queue_t :=
  match q with
  | none => none
  | some _ => none

/-- Model of `q_insert_head(q, s)` from queue.c.  On success the new node is linked in
front of the old head; if `tail` was `NULL` it is set to the new head,
otherwise the code walks `tail` forward along next links to the last node. -/
def q_insert_head (q : Option queue_t) (s : Str) (alloc : AllocOutcome) :
    Option (Option queue_t × Bool) :=
  match q with
  | none => some (none, false)
  | some qq =>
    match alloc with
    | .nodeFail => some (some qq, false)
    | .valueFail => some (some qq, false)
    | .ok a =>
      let chain := { addr := a, value := s } :: qq.chain
      match qq.tail with
      | none =>
        some (some { chain := chain, tail := some a, size := qq.size + 1 }, true)
      | some t =>
        match tailWalk chain t with
        | none => none
        | some t2 =>
          some (some { chain := chain, tail := some t2, size := qq.size + 1 }, true)

/-- Model of `q_insert_tail(q, s)` from queue.c.  On success with `tail == NULL` the
code sets `q->tail = q->head = newt`, so the new node becomes the whole
reachable chain; otherwise it links the new node after the tail node (which
must be the last reachable node for the link structure to stay a chain). -/
def q_insert_tail (q : Option queue_t) (s : Str) (alloc : AllocOutcome) :
    Option (Option queue_t × Bool) :=
  match q with
  | none => some (none, false)
  | some qq =>
    match alloc with
    | .nodeFail => some (some qq, false)
    | .valueFail => some (some qq, false)
    | .ok a =>
      match qq.tail with
      | none =>
        some (some { chain := [{ addr := a, value := s }], tail := some a,
                     size := qq.size + 1 }, true)
      | some t =>
        if lastAddr qq.chain = some t then
          some (some { chain := qq.chain ++ [{ addr := a, value := s }],
                       tail := some a, size := qq.size + 1 }, true)
        else none

/-- Width of `size_t` values: arithmetic on them is modulo `2 ^ 64`. -/
def U64 : Nat := 2 ^ 64

/-- The quantity `realbufsize` computed by `q_remove_head`:
`(bufsize > strlen(v)) ? strlen(v) : bufsize - 1`, where the subtraction is
on `size_t` and hence wraps modulo `2 ^ 64` when `bufsize` is `0`. -/
def realbufsize (v : Str) (bufsize : Nat) : Nat :=
  if bufsize > v.length then v.length else (bufsize + U64 - 1) % U64

/-- What `q_remove_head` does to a non-`NULL` output buffer `sp`:
`content` is the sequence of value bytes placed in the buffer by
`strncpy(sp, value, realbufsize)`, and `bytesWritten` is the total extent of
the buffer written by `memset(sp, 0, realbufsize + 1)` together with the
`strncpy` (which writes exactly `realbufsize` bytes, padding with NUL). -/
structure CopyOut where
  content : Str
  bytesWritten : Nat
deriving DecidableEq, Repr

/-- Result of `q_remove_head`: the queue after the call, the boolean return
value, and the effect on the output buffer (`none` when `sp` is `NULL` or
nothing was removed). -/
structure RemoveOut where
  q : Option queue_t
  ok : Bool
  sp : Option CopyOut
deriving DecidableEq, Repr

/-- Model of `q_remove_head(q, sp, bufsize)` from queue.c.  Fails on a `NULL` or empty
queue.  Otherwise fills the buffer as described by `CopyOut`, unlinks the
head node and frees it.  The `tail` field is not touched. -/
def q_remove_head (q : Option queue_t) (spNonNull : Bool) (bufsize : Nat) :
    RemoveOut :=
  match q with
  | none => { q := none, ok := false, sp := none }
  | some qq =>
    match qq.chain with
    | [] => { q := some qq, ok := false, sp := none }
    | n :: rest =>
      let rb := realbufsize n.value bufsize
      { q := some { chain := rest, tail := qq.tail, size := qq.size - 1 },
        ok := true,
        sp := if spNonNull then
                some { content := n.value.take rb,
                       bytesWritten := max ((rb + 1) % U64) rb }
              else none }

/-- Model of `q_size(q)` from queue.c: `!q ? 0 : q->size`. -/
def q_size (q : Option queue_t) : Int :=
  match q with
  | none => 0
  | some qq => qq.size

/-- Model of `q_reverse(q)` from queue.c.  Returns at once on a `NULL` queue, an empty
queue or a single-node queue.  Otherwise swaps `head` and `tail` and reverses
every next link with the `prev`/`now`/`next` loop; the new reachable chain
starts at the node `tail` pointed to, so the model requires `tail` to be the
last reachable node (otherwise the C code rebuilds a structure that is not a
chain from `head`, and the model returns `none`). -/
def q_reverse (q : Option queue_t) : Option (Option queue_t) :=
  match q with
  | none => some none
  | some qq =>
    match qq.chain with
    | [] => some (some qq)
    | [_] => some (some qq)
    | n :: m :: rest =>
      match qq.tail with
      | none => none
      | some t =>
        if lastAddr (n :: m :: rest) = some t then
          some (some { chain := reverseChain [] (n :: m :: rest),
                       tail := some n.addr, size := qq.size })
        else none

/-- Model of `q_sort(q)` from queue.c.  Returns at once when `q` is `NULL` or
`q->head == q->tail` (empty or single-node queue).  Otherwise replaces the
chain by `mergeSortList(q->head)` and advances `q->tail` along next links to
the last node (`none` when the stored tail address is not a node of the
sorted chain, which would be a stale-pointer walk in C). -/
def q_sort (q : Option queue_t) : Option (Option queue_t) :=
  match q with
  | none => some none
  | some qq =>
    if headAddr qq = qq.tail then some (some qq)
    else
      match qq.tail with
      | none => none
      | some t =>
        match tailWalk (mergeSortList qq.chain) t with
        | none => none
        | some t2 =>
          some (some { chain := mergeSortList qq.chain, tail := some t2,
                       size := qq.size })

/-- The structural invariants of a live queue: distinct node addresses, the
`tail` field holds the address of the last reachable node, and `size` is the
number of reachable nodes. -/
def WF (q : queue_t) : Prop :=
  (q.chain.map list_ele_t.addr).Nodup ∧ q.tail = lastAddr q.chain ∧
    q.size = (q.chain.length : Int)

instance (q : queue_t) : Decidable (WF q) :=
  inferInstanceAs (Decidable ((q.chain.map list_ele_t.addr).Nodup ∧
    q.tail = lastAddr q.chain ∧ q.size = (q.chain.length : Int)))

/-! ### Properties of the value ordering -/

theorem strcmp_neg (a : Str) : ∀ b, strcmp a b = - strcmp b a := by
  induction a with
  | nil => intro b; cases b <;> simp [strcmp]
  | cons x as ih =>
    intro b
    cases b with
    | nil => simp [strcmp]
    | cons y bs =>
      simp only [strcmp]
      split_ifs <;> first | omega | exact ih bs

theorem strcmp_eq_zero_imp (a : Str) : ∀ b, strcmp a b = 0 → a = b := by
  induction a with
  | nil =>
    intro b h
    cases b with
    | nil => rfl
    | cons y bs => simp [strcmp] at h
  | cons x as ih =>
    intro b h
    cases b with
    | nil => simp [strcmp] at h
    | cons y bs =>
      simp only [strcmp] at h
      split_ifs at h with h1 h2
      · omega
      · have h3 : x = y := by omega
        have h4 : as = bs := ih bs h
        rw [h3, h4]

theorem strle_trans {a b c : Str} (h1 : strle a b) (h2 : strle b c) : strle a c := by
  unfold strle at *
  induction a generalizing b c with
  | nil => cases c <;> simp [strcmp]
  | cons x as ih =>
    cases b with
    | nil => simp [strcmp] at h1
    | cons y bs =>
      cases c with
      | nil => simp [strcmp] at h2
      | cons z cs =>
        simp only [strcmp] at h1 h2 ⊢
        split_ifs at h1 h2 ⊢ <;> first | omega | exact ih h1 h2

theorem strle_of_not_lt {a b : Str} (h : ¬ strcmp a b < 0) : strle b a := by
  unfold strle
  rw [strcmp_neg b a]
  omega

theorem strle_antisymm {a b : Str} (h1 : strle a b) (h2 : strle b a) : a = b := by
  unfold strle at h1 h2
  rw [strcmp_neg b a] at h2
  exact strcmp_eq_zero_imp a b (by omega)

instance : IsAntisymm Str strle := ⟨fun _ _ h1 h2 => strle_antisymm h1 h2⟩

theorem rle_trans {a b c : list_ele_t} (h1 : rle a b) (h2 : rle b c) : rle a c :=
  strle_trans h1 h2

/-! ### Properties of merge -/

theorem mergeFuel_perm (fuel : Nat) :
    ∀ l1 l2 : List list_ele_t, List.Perm (mergeFuel fuel l1 l2) (l1 ++ l2) := by
  induction fuel with
  | zero => intro l1 l2; simp [mergeFuel]
  | succ n ih =>
    intro l1 l2
    cases l1 with
    | nil => simp [mergeFuel]
    | cons a as =>
      cases l2 with
      | nil => simp [mergeFuel]
      | cons b bs =>
        simp only [mergeFuel]
        split_ifs
        · exact (ih as (b :: bs)).cons a
        · refine ((ih (a :: as) bs).cons b).trans ?_
          exact List.perm_middle.symm

theorem mergeFuel_pairwise (fuel : Nat) :
    ∀ l1 l2 : List list_ele_t, l1.length + l2.length ≤ fuel →
      l1.Pairwise rle → l2.Pairwise rle → (mergeFuel fuel l1 l2).Pairwise rle := by
  induction fuel with
  | zero =>
    intro l1 l2 hf _ _
    have h1 : l1 = [] := by
      cases l1 with
      | nil => rfl
      | cons x xs => simp only [List.length_cons] at hf; omega
    have h2 : l2 = [] := by
      cases l2 with
      | nil => rfl
      | cons x xs => simp only [List.length_cons] at hf; omega
    subst h1; subst h2
    simp [mergeFuel]
  | succ n ih =>
    intro l1 l2 hf h1 h2
    cases l1 with
    | nil => simpa [mergeFuel] using h2
    | cons a as =>
      cases l2 with
      | nil => simpa [mergeFuel] using h1
      | cons b bs =>
        simp only [mergeFuel]
        split_ifs with hc
        · rw [List.pairwise_cons]
          refine ⟨?_, ih as (b :: bs) (by simp at hf ⊢; omega)
            (List.pairwise_cons.mp h1).2 h2⟩
          intro x hx
          have hx2 : x ∈ as ++ b :: bs := (mergeFuel_perm n as (b :: bs)).mem_iff.mp hx
          rcases List.mem_append.mp hx2 with hxa | hxb
          · exact (List.pairwise_cons.mp h1).1 x hxa
          · rcases List.mem_cons.mp hxb with rfl | hxbs
            · exact le_of_lt hc
            · exact rle_trans (le_of_lt hc) ((List.pairwise_cons.mp h2).1 x hxbs)
        · rw [List.pairwise_cons]
          refine ⟨?_, ih (a :: as) bs (by simp at hf ⊢; omega) h1
            (List.pairwise_cons.mp h2).2⟩
          intro x hx
          have hx2 : x ∈ (a :: as) ++ bs := (mergeFuel_perm n (a :: as) bs).mem_iff.mp hx
          rcases List.mem_append.mp hx2 with hxa | hxb
          · rcases List.mem_cons.mp hxa with rfl | hxas
            · exact strle_of_not_lt hc
            · exact rle_trans (strle_of_not_lt hc) ((List.pairwise_cons.mp h1).1 x hxas)
          · exact (List.pairwise_cons.mp h2).1 x hxb

theorem merge_perm (l1 l2 : List list_ele_t) : List.Perm (merge l1 l2) (l1 ++ l2) :=
  mergeFuel_perm _ l1 l2

theorem merge_pairwise {l1 l2 : List list_ele_t}
    (h1 : l1.Pairwise rle) (h2 : l2.Pairwise rle) : (merge l1 l2).Pairwise rle :=
  mergeFuel_pairwise _ l1 l2 le_rfl h1 h2

/-! ### Properties of the split and of mergeSortList -/

theorem splitSteps_two_mul : ∀ l : List list_ele_t, 2 * splitSteps l ≤ l.length
  | [] => by simp [splitSteps]
  | [_] => by simp [splitSteps]
  | _ :: _ :: fs => by
    have ih := splitSteps_two_mul fs
    simp only [splitSteps, List.length_cons]
    omega

theorem mergeSortFuel_perm (fuel : Nat) :
    ∀ l : List list_ele_t, List.Perm (mergeSortFuel fuel l) l := by
  induction fuel with
  | zero => intro l; simp [mergeSortFuel]
  | succ n ih =>
    intro l
    cases l with
    | nil => simp [mergeSortFuel]
    | cons a as =>
      cases as with
      | nil => simp [mergeSortFuel]
      | cons b bs =>
        simp only [mergeSortFuel]
        refine (merge_perm _ _).trans ?_
        refine (((ih _).append (ih _)).trans ?_)
        rw [List.take_append_drop]

theorem mergeSortFuel_pairwise (fuel : Nat) :
    ∀ l : List list_ele_t, l.length ≤ fuel → (mergeSortFuel fuel l).Pairwise rle := by
  induction fuel with
  | zero =>
    intro l hf
    have : l = [] := by
      cases l with
      | nil => rfl
      | cons x xs => simp at hf
    subst this
    simp [mergeSortFuel]
  | succ n ih =>
    intro l hf
    cases l with
    | nil => simp [mergeSortFuel]
    | cons a as =>
      cases as with
      | nil => simp [mergeSortFuel]
      | cons b bs =>
        simp only [mergeSortFuel]
        have hs := splitSteps_two_mul (b :: bs)
        have hlen : (a :: b :: bs).length = bs.length + 2 := by simp
        apply merge_pairwise
        · apply ih
          have : ((a :: b :: bs).take (splitSteps (b :: bs) + 1)).length ≤
              splitSteps (b :: bs) + 1 := by
            simp [List.length_take]
          simp only [List.length_cons] at hs hf ⊢
          simp [List.length_take]
          omega
        · apply ih
          simp only [List.length_drop]
          simp only [List.length_cons] at hf
          omega

theorem mergeSortList_perm (l : List list_ele_t) : List.Perm (mergeSortList l) l :=
  mergeSortFuel_perm _ l

theorem mergeSortList_pairwise (l : List list_ele_t) : (mergeSortList l).Pairwise rle :=
  mergeSortFuel_pairwise _ l le_rfl

/-! ### Properties of reverseChain and tailWalk -/

theorem reverseChain_eq : ∀ (l acc : List list_ele_t),
    reverseChain acc l = l.reverse ++ acc
  | [], acc => by simp [reverseChain]
  | n :: rest, acc => by
    rw [reverseChain, reverseChain_eq rest (n :: acc)]
    simp

theorem tailWalk_eq_last : ∀ (c : List list_ele_t) (t : Nat),
    t ∈ c.map list_ele_t.addr → tailWalk c t = lastAddr c
  | [], t => by simp
  | n :: rest, t => by
    intro ht
    rw [tailWalk]
    split_ifs with h
    · rfl
    · have ht2 : t ∈ rest.map list_ele_t.addr := by
        rcases List.mem_map.mp ht with ⟨x, hx, hxa⟩
        rcases List.mem_cons.mp hx with rfl | hxr
        · exact absurd hxa h
        · exact List.mem_map.mpr ⟨x, hxr, hxa⟩
      rw [tailWalk_eq_last rest t ht2]
      cases rest with
      | nil => simp at ht2
      | cons m rest2 => simp [lastAddr]

/-! ### Facts about lastAddr and headAddr -/

theorem lastAddr_mem {c : List list_ele_t} {t : Nat} (h : lastAddr c = some t) :
    t ∈ c.map list_ele_t.addr := by
  unfold lastAddr at h
  cases hg : c.getLast? with
  | none => rw [hg] at h; simp at h
  | some n =>
    rw [hg] at h
    simp only [Option.map_some'] at h
    have hmem : n ∈ c := by
      obtain ⟨hne, heq⟩ := List.mem_getLast?_eq_getLast (Option.mem_def.mpr hg)
      rw [heq]
      exact List.getLast_mem hne
    have ha : n.addr = t := by injection h
    exact ha ▸ List.mem_map.mpr ⟨n, hmem, rfl⟩

theorem lastAddr_isSome {c : List list_ele_t} (h : c ≠ []) :
    ∃ t, lastAddr c = some t := by
  unfold lastAddr
  rw [List.getLast?_eq_getLast_of_ne_nil h]
  exact ⟨_, rfl⟩

theorem lastAddr_cons_cons (n m : list_ele_t) (rest : List list_ele_t) :
    lastAddr (n :: m :: rest) = lastAddr (m :: rest) := by
  simp [lastAddr]

/-! ### Behaviour of q_sort on a well-formed queue -/

theorem q_sort_spec (q : queue_t) (h : WF q) :
    ∃ q2, q_sort (some q) = some (some q2) ∧ List.Perm q2.chain q.chain ∧
      q2.chain.Pairwise rle ∧ q2.tail = lastAddr q2.chain ∧
      q2.size = q.size ∧ WF q2 := by
  obtain ⟨hnd, htl, hsz⟩ := h
  cases hc : q.chain with
  | nil =>
    have h1 : headAddr q = q.tail := by
      rw [htl]
      simp [headAddr, lastAddr, hc]
    refine ⟨q, by simp [q_sort, h1], by rw [hc], by rw [hc]; exact List.Pairwise.nil,
      htl, rfl, hnd, htl, hsz⟩
  | cons n as =>
    cases as with
    | nil =>
      have h1 : headAddr q = q.tail := by
        rw [htl]
        simp [headAddr, lastAddr, hc]
      refine ⟨q, by simp [q_sort, h1], by rw [hc], ?_, htl, rfl, hnd, htl, hsz⟩
      rw [hc]
      exact List.pairwise_singleton rle n
    | cons m rest =>
      obtain ⟨t, ht⟩ : ∃ t, lastAddr q.chain = some t := by
        apply lastAddr_isSome
        rw [hc]
        simp
      have htt : q.tail = some t := htl.trans ht
      have htmem2 : t ∈ (m :: rest).map list_ele_t.addr := by
        apply lastAddr_mem
        rw [hc, lastAddr_cons_cons] at ht
        exact ht
      have hheadne : ¬ headAddr q = some t := by
        simp only [headAddr, hc, List.head?_cons, Option.map_some']
        intro heq
        obtain rfl : n.addr = t := by injection heq
        rw [hc] at hnd
        simp only [List.map_cons, List.nodup_cons] at hnd
        exact hnd.1 htmem2
      have htmem : t ∈ (mergeSortList q.chain).map list_ele_t.addr := by
        have hp : List.Perm ((mergeSortList q.chain).map list_ele_t.addr)
            (q.chain.map list_ele_t.addr) := (mergeSortList_perm q.chain).map _
        apply hp.mem_iff.mpr
        rw [hc, List.map_cons]
        exact List.mem_cons_of_mem _ htmem2
      have hw : tailWalk (mergeSortList q.chain) t = lastAddr (mergeSortList q.chain) :=
        tailWalk_eq_last _ t htmem
      obtain ⟨t2, ht2⟩ : ∃ t2, lastAddr (mergeSortList q.chain) = some t2 := by
        apply lastAddr_isSome
        intro hnil
        have hl := (mergeSortList_perm q.chain).length_eq
        rw [hnil, hc] at hl
        simp at hl
      refine ⟨⟨mergeSortList q.chain, some t2, q.size⟩, ?_, ?_, ?_, ?_, rfl, ?_, ?_, ?_⟩
      · simp [q_sort, htt, hheadne, hw, ht2]
      · rw [← hc]
        exact mergeSortList_perm q.chain
      · exact mergeSortList_pairwise q.chain
      · exact ht2.symm
      · have hp : List.Perm ((mergeSortList q.chain).map list_ele_t.addr)
            (q.chain.map list_ele_t.addr) := (mergeSortList_perm q.chain).map _
        exact hp.nodup_iff.mpr hnd
      · exact ht2.symm
      · have hl := (mergeSortList_perm q.chain).length_eq
        show q.size = ((mergeSortList q.chain).length : Int)
        rw [hl, ← hsz]

/-! ### Behaviour of q_reverse -/

theorem q_reverse_nil (q : queue_t) (hc : q.chain = []) :
    q_reverse (some q) = some (some q) := by
  simp [q_reverse, hc]

theorem q_reverse_single (q : queue_t) (n : list_ele_t) (hc : q.chain = [n]) :
    q_reverse (some q) = some (some q) := by
  simp [q_reverse, hc]

theorem q_reverse_spec (q : queue_t) (h : WF q) (hlen : 2 ≤ q.chain.length) :
    ∃ q2, q_reverse (some q) = some (some q2) ∧ q2.chain = q.chain.reverse ∧
      q2.tail = headAddr q ∧ headAddr q2 = lastAddr q.chain ∧
      q2.size = q.size ∧ WF q2 := by
  obtain ⟨hnd, htl, hsz⟩ := h
  cases hc : q.chain with
  | nil => rw [hc] at hlen; simp at hlen
  | cons n as =>
    cases as with
    | nil => rw [hc] at hlen; simp at hlen
    | cons m rest =>
      obtain ⟨t, ht⟩ : ∃ t, lastAddr q.chain = some t := by
        apply lastAddr_isSome
        rw [hc]
        simp
      have htt : q.tail = some t := htl.trans ht
      rw [hc] at ht
      refine ⟨⟨reverseChain [] (n :: m :: rest), some n.addr, q.size⟩,
        ?_, ?_, ?_, ?_, rfl, ?_, ?_, ?_⟩
      · simp only [q_reverse, hc, htt]
        rw [if_pos ht]
      · show reverseChain [] (n :: m :: rest) = (n :: m :: rest).reverse
        rw [reverseChain_eq]
        simp
      · show some n.addr = headAddr q
        simp [headAddr, hc]
      · show headAddr ⟨reverseChain [] (n :: m :: rest), some n.addr, q.size⟩ =
          lastAddr (n :: m :: rest)
        simp only [headAddr, reverseChain_eq, List.append_nil, List.head?_reverse]
        simp [lastAddr]
      · show ((reverseChain [] (n :: m :: rest)).map list_ele_t.addr).Nodup
        rw [reverseChain_eq]
        simp only [List.append_nil, List.map_reverse, List.nodup_reverse]
        rw [← hc]
        exact hnd
      · show some n.addr = lastAddr (reverseChain [] (n :: m :: rest))
        rw [reverseChain_eq]
        simp only [List.append_nil, lastAddr, List.getLast?_reverse]
        simp
      · show q.size = ((reverseChain [] (n :: m :: rest)).length : Int)
        rw [reverseChain_eq]
        simp only [List.append_nil, List.length_reverse]
        rw [hsz, hc]

/-! ### Claims -/

/-- C1: the claim asserts that a successful `q_remove_head` on a one-node
queue resets the tail anchor to the empty-marker so that `count == 0` iff
head and tail are both empty.  The code never touches `q->tail`: on the
well-formed one-node queue at address `0` the removal succeeds and leaves
`size = 0` and an empty chain, but `tail` still holds the freed node's
address `0`, violating the invariant at exit. -/
theorem C1_remove_head_keeps_stale_tail :
    ∃ q2, q_remove_head (some ⟨[⟨0, [97]⟩], some 0, 1⟩) false 16 =
        { q := some q2, ok := true, sp := none } ∧
      q2.size = 0 ∧ q2.chain = [] ∧ ¬ q2.tail = none := by
  refine ⟨⟨[], some 0, 0⟩, by decide, by decide, by decide, by decide⟩

/-- C2: the claim asserts that with an output buffer of capacity `c = 0` the
copy yields an empty string (and in general copies at most `c - 1` bytes).
In the code `realbufsize = bufsize - 1` is computed in `size_t`, so for
`bufsize = 0` it wraps to `2^64 - 1`: `strncpy` then writes `2^64 - 1` bytes
and copies the whole stored value into the buffer rather than nothing —
a buffer overrun, not an empty string. -/
theorem C2_bufsize_zero_overrun :
    ∃ cp, (q_remove_head (some ⟨[⟨0, [97]⟩], some 0, 1⟩) true 0).sp = some cp ∧
      cp.content = [97] ∧ ¬ cp.content = [] ∧ cp.bytesWritten = 2 ^ 64 - 1 := by
  refine ⟨⟨[97], 2 ^ 64 - 1⟩, by decide, rfl, by decide, rfl⟩

/-- C3: after `q_sort` on a well-formed queue, the front-to-back values are
in non-descending lexicographic order (every adjacent pair `v_i <= v_{i+1}`),
the multiset of values is exactly the one present before the call, and the
count is unchanged. -/
theorem C3_sort_sorted_and_preserving (q : queue_t) (h : WF q) :
    ∃ q2, q_sort (some q) = some (some q2) ∧
      List.Chain' strle (vals q2) ∧
      (vals q2 : Multiset Str) = (vals q : Multiset Str) ∧
      q2.size = q.size := by
  obtain ⟨q2, he, hperm, hsort, _, hsz, _⟩ := q_sort_spec q h
  refine ⟨q2, he, ?_, ?_, hsz⟩
  · show List.Chain' strle (q2.chain.map list_ele_t.value)
    exact ((@List.pairwise_map list_ele_t Str list_ele_t.value strle q2.chain).mpr
      (hsort.imp (fun hab => hab))).chain'
  · exact Multiset.coe_eq_coe.mpr (hperm.map _)

/-- C3 witness: the claim instantiated on the concrete two-node queue
holding "b" then "a". -/
theorem C3_witness :
    ∃ q2, q_sort (some ⟨[⟨0, [98]⟩, ⟨1, [97]⟩], some 1, 2⟩) = some (some q2) ∧
      List.Chain' strle (vals q2) ∧
      (vals q2 : Multiset Str) =
        (vals ⟨[⟨0, [98]⟩, ⟨1, [97]⟩], some 1, 2⟩ : Multiset Str) ∧
      q2.size = (⟨[⟨0, [98]⟩, ⟨1, [97]⟩], some 1, 2⟩ : queue_t).size :=
  C3_sort_sorted_and_preserving ⟨[⟨0, [98]⟩, ⟨1, [97]⟩], some 1, 2⟩ (by decide)

/-- C4: after `q_sort` on a well-formed queue the tail anchor holds the
address of the actual last node reachable from head; and `q_reverse` on a
well-formed queue with at least two nodes makes the old head the new tail,
the old tail (last reachable node) the new head, reverses the whole chain of
next links, keeps the count, and preserves the structural invariants. -/
theorem C4_tail_after_sort_and_reverse :
    (∀ q : queue_t, WF q → ∃ q2, q_sort (some q) = some (some q2) ∧
      q2.tail = lastAddr q2.chain) ∧
    (∀ q : queue_t, WF q → 2 ≤ q.chain.length → ∃ q2,
      q_reverse (some q) = some (some q2) ∧ q2.chain = q.chain.reverse ∧
      q2.tail = headAddr q ∧ headAddr q2 = lastAddr q.chain ∧
      q2.size = q.size ∧ WF q2) := by
  constructor
  · intro q h
    obtain ⟨q2, he, _, _, ht, _, _⟩ := q_sort_spec q h
    exact ⟨q2, he, ht⟩
  · intro q h hlen
    exact q_reverse_spec q h hlen

/-- C4 witness: both parts instantiated on the concrete two-node queue
holding "b" then "a". -/
theorem C4_witness :
    (∃ q2, q_sort (some ⟨[⟨0, [98]⟩, ⟨1, [97]⟩], some 1, 2⟩) = some (some q2) ∧
      q2.tail = lastAddr q2.chain) ∧
    (∃ q2, q_reverse (some ⟨[⟨0, [98]⟩, ⟨1, [97]⟩], some 1, 2⟩) = some (some q2) ∧
      q2.chain = (⟨[⟨0, [98]⟩, ⟨1, [97]⟩], some 1, 2⟩ : queue_t).chain.reverse ∧
      q2.tail = headAddr ⟨[⟨0, [98]⟩, ⟨1, [97]⟩], some 1, 2⟩ ∧
      headAddr q2 = lastAddr (⟨[⟨0, [98]⟩, ⟨1, [97]⟩], some 1, 2⟩ : queue_t).chain ∧
      q2.size = (⟨[⟨0, [98]⟩, ⟨1, [97]⟩], some 1, 2⟩ : queue_t).size ∧ WF q2) :=
  ⟨C4_tail_after_sort_and_reverse.1 ⟨[⟨0, [98]⟩, ⟨1, [97]⟩], some 1, 2⟩ (by decide),
   C4_tail_after_sort_and_reverse.2 ⟨[⟨0, [98]⟩, ⟨1, [97]⟩], some 1, 2⟩ (by decide)
     (by decide)⟩

/-- C5: `q_reverse` is an involution on the value sequence of a well-formed
queue (reversing twice restores the original front-to-back order of values),
and on a `NULL`, empty, or single-node queue it is a no-op. -/
theorem C5_reverse_involution_and_noop :
    (∀ q : queue_t, WF q → ∃ q2 q3, q_reverse (some q) = some (some q2) ∧
      q_reverse (some q2) = some (some q3) ∧ vals q3 = vals q) ∧
    q_reverse none = some none ∧
    (∀ q : queue_t, q.chain = [] → q_reverse (some q) = some (some q)) ∧
    (∀ (q : queue_t) (n : list_ele_t), q.chain = [n] →
      q_reverse (some q) = some (some q)) := by
  refine ⟨?_, rfl, q_reverse_nil, fun q n hc => q_reverse_single q n hc⟩
  intro q h
  cases hc : q.chain with
  | nil => exact ⟨q, q, q_reverse_nil q hc, q_reverse_nil q hc, rfl⟩
  | cons n as =>
    cases as with
    | nil => exact ⟨q, q, q_reverse_single q n hc, q_reverse_single q n hc, rfl⟩
    | cons m rest =>
      have hlen : 2 ≤ q.chain.length := by
        rw [hc]
        simp only [List.length_cons]
        omega
      obtain ⟨q2, he2, hc2, _, _, _, hwf2⟩ := q_reverse_spec q h hlen
      have hlen2 : 2 ≤ q2.chain.length := by
        rw [hc2, List.length_reverse]
        exact hlen
      obtain ⟨q3, he3, hc3, _, _, _, _⟩ := q_reverse_spec q2 hwf2 hlen2
      refine ⟨q2, q3, he2, he3, ?_⟩
      show q3.chain.map list_ele_t.value = q.chain.map list_ele_t.value
      rw [hc3, hc2, List.reverse_reverse]

/-- C5 witness: the involution applied to the concrete two-node queue, and
the no-op cases at the empty queue and a one-node queue. -/
theorem C5_witness :
    (∃ q2 q3, q_reverse (some ⟨[⟨0, [98]⟩, ⟨1, [97]⟩], some 1, 2⟩) = some (some q2) ∧
      q_reverse (some q2) = some (some q3) ∧
      vals q3 = vals ⟨[⟨0, [98]⟩, ⟨1, [97]⟩], some 1, 2⟩) ∧
    q_reverse (some q_new) = some (some q_new) ∧
    q_reverse (some ⟨[⟨7, [97]⟩], some 7, 1⟩) =
      some (some ⟨[⟨7, [97]⟩], some 7, 1⟩) :=
  ⟨C5_reverse_involution_and_noop.1 ⟨[⟨0, [98]⟩, ⟨1, [97]⟩], some 1, 2⟩ (by decide),
   C5_reverse_involution_and_noop.2.2.1 q_new rfl,
   C5_reverse_involution_and_noop.2.2.2 ⟨[⟨7, [97]⟩], some 7, 1⟩ ⟨7, [97]⟩ rfl⟩

/-- C6: when either allocation of an insertion fails, `q_insert_head` and
`q_insert_tail` return `false` and leave the queue exactly as at entry —
same head, tail, count and chain of values. -/
theorem C6_insert_alloc_failure_no_mutation (q : queue_t) (s : Str) :
    q_insert_head (some q) s .nodeFail = some (some q, false) ∧
    q_insert_head (some q) s .valueFail = some (some q, false) ∧
    q_insert_tail (some q) s .nodeFail = some (some q, false) ∧
    q_insert_tail (some q) s .valueFail = some (some q, false) :=
  ⟨rfl, rfl, rfl, rfl⟩

/-- C7: a successful first insertion into an empty queue, through either
`q_insert_head` or `q_insert_tail`, leaves head and tail both at the single
new node (whose next link is empty) and the count at 1. -/
theorem C7_first_insertion (q : queue_t) (s : Str) (a : Nat)
    (hc : q.chain = []) (ht : q.tail = none) (hs : q.size = 0) :
    q_insert_head (some q) s (.ok a) =
      some (some ⟨[⟨a, s⟩], some a, 1⟩, true) ∧
    q_insert_tail (some q) s (.ok a) =
      some (some ⟨[⟨a, s⟩], some a, 1⟩, true) := by
  obtain ⟨c, t, z⟩ := q
  simp only at hc ht hs
  subst hc; subst ht; subst hs
  exact ⟨rfl, rfl⟩

/-- C7 witness: the first insertion of "a" at address 5 into the freshly
created empty queue. -/
theorem C7_witness :
    q_insert_head (some q_new) [97] (.ok 5) =
      some (some ⟨[⟨5, [97]⟩], some 5, 1⟩, true) ∧
    q_insert_tail (some q_new) [97] (.ok 5) =
      some (some ⟨[⟨5, [97]⟩], some 5, 1⟩, true) :=
  C7_first_insertion q_new [97] 5 rfl rfl rfl

/-- C8: every public operation degrades gracefully on a `NULL` queue —
`q_size` returns 0, the insertions and `q_remove_head` return `false`,
`q_reverse`, `q_sort` and `q_free` are no-ops — and `q_remove_head` on an
empty queue fails and leaves the size at 0. -/
theorem C8_null_and_empty_graceful :
    q_size none = 0 ∧
    (∀ (s : Str) (alloc : AllocOutcome),
      q_insert_head none s alloc = some (none, false)) ∧
    (∀ (s : Str) (alloc : AllocOutcome),
      q_insert_tail none s alloc = some (none, false)) ∧
    (∀ (sp : Bool) (b : Nat),
      q_remove_head none sp b = { q := none, ok := false, sp := none }) ∧
    q_reverse none = some none ∧
    q_sort none = some none ∧
    q_free none = none ∧
    (∀ (q : queue_t) (sp : Bool) (b : Nat), q.chain = [] → q.size = 0 →
      q_remove_head (some q) sp b = { q := some q, ok := false, sp := none } ∧
      q_size (q_remove_head (some q) sp b).q = 0) := by
  refine ⟨rfl, fun s alloc => rfl, fun s alloc => rfl, fun sp b => rfl,
    rfl, rfl, rfl, ?_⟩
  intro q sp b hc hs
  have he : q_remove_head (some q) sp b = { q := some q, ok := false, sp := none } := by
    simp [q_remove_head, hc]
  refine ⟨he, ?_⟩
  rw [he]
  show q.size = 0
  exact hs

/-- C8 witness: the empty-queue removal clause applied to the freshly
created empty queue. -/
theorem C8_witness :
    q_remove_head (some q_new) true 8 = { q := some q_new, ok := false, sp := none } ∧
    q_size (q_remove_head (some q_new) true 8).q = 0 :=
  C8_null_and_empty_graceful.2.2.2.2.2.2.2 q_new true 8 rfl rfl

/-- C9: `q_sort` is idempotent on the value sequence: sorting a well-formed
queue twice yields the same front-to-back sequence of values as sorting it
once. -/
theorem C9_sort_idempotent (q : queue_t) (h : WF q) :
    ∃ q1 q2, q_sort (some q) = some (some q1) ∧
      q_sort (some q1) = some (some q2) ∧ vals q2 = vals q1 := by
  obtain ⟨q1, he1, _, hs1, _, _, hwf1⟩ := q_sort_spec q h
  obtain ⟨q2, he2, hp2, hs2, _, _, _⟩ := q_sort_spec q1 hwf1
  refine ⟨q1, q2, he1, he2, ?_⟩
  have hperm : (vals q2).Perm (vals q1) := hp2.map _
  have hsort1 : (vals q1).Sorted strle :=
    (@List.pairwise_map list_ele_t Str list_ele_t.value strle q1.chain).mpr
      (hs1.imp (fun hab => hab))
  have hsort2 : (vals q2).Sorted strle :=
    (@List.pairwise_map list_ele_t Str list_ele_t.value strle q2.chain).mpr
      (hs2.imp (fun hab => hab))
  exact List.eq_of_perm_of_sorted hperm hsort2 hsort1

/-- C9 witness: idempotence at the concrete three-node queue holding
"b", "a", "c". -/
theorem C9_witness :
    ∃ q1 q2, q_sort (some ⟨[⟨0, [98]⟩, ⟨1, [97]⟩, ⟨2, [99]⟩], some 2, 3⟩) =
        some (some q1) ∧
      q_sort (some q1) = some (some q2) ∧ vals q2 = vals q1 :=
  C9_sort_idempotent ⟨[⟨0, [98]⟩, ⟨1, [97]⟩, ⟨2, [99]⟩], some 2, 3⟩ (by decide)

/-- C10: in the `merge` step of the sort, when the front values of two
non-empty sorted chains compare equal (`strcmp == 0`), the merged chain
begins with the head of the second chain: the `result < 0` test sends ties
to the second argument. -/
theorem C10_merge_tie_prefers_second (n1 n2 : list_ele_t)
    (l1 l2 : List list_ele_t)
    (_h1 : (n1 :: l1).Pairwise rle) (_h2 : (n2 :: l2).Pairwise rle)
    (heq : strcmp n1.value n2.value = 0) :
    (merge (n1 :: l1) (n2 :: l2)).head? = some n2 := by
  unfold merge
  simp only [List.length_cons]
  rw [show l1.length + 1 + (l2.length + 1) = l1.length + 1 + l2.length + 1 by omega]
  simp only [mergeFuel]
  rw [if_neg (by omega)]
  simp

/-- C10 witness: merging the one-node chains at addresses 0 and 1 both
holding "a" starts with the node of the second chain. -/
theorem C10_witness :
    (merge [⟨0, [97]⟩] [⟨1, [97]⟩]).head? = some ⟨1, [97]⟩ :=
  C10_merge_tie_prefers_second ⟨0, [97]⟩ ⟨1, [97]⟩ [] []
    (by decide) (by decide) (by decide)

/-- C6 witness: both insertions with each failing allocation at the concrete
one-node queue leave it untouched and report failure. -/
theorem C6_witness :
    q_insert_head (some ⟨[⟨0, [97]⟩], some 0, 1⟩) [98] .nodeFail =
      some (some ⟨[⟨0, [97]⟩], some 0, 1⟩, false) ∧
    q_insert_head (some ⟨[⟨0, [97]⟩], some 0, 1⟩) [98] .valueFail =
      some (some ⟨[⟨0, [97]⟩], some 0, 1⟩, false) ∧
    q_insert_tail (some ⟨[⟨0, [97]⟩], some 0, 1⟩) [98] .nodeFail =
      some (some ⟨[⟨0, [97]⟩], some 0, 1⟩, false) ∧
    q_insert_tail (some ⟨[⟨0, [97]⟩], some 0, 1⟩) [98] .valueFail =
      some (some ⟨[⟨0, [97]⟩], some 0, 1⟩, false) :=
  C6_insert_alloc_failure_no_mutation ⟨[⟨0, [97]⟩], some 0, 1⟩ [98]
